import Mathlib

/-!
# Verification of the mutwo.core event/envelope engine specification

This file shallowly embeds the relevant parts of the `mutwo.core` repository
and proves or refutes the frozen claims about it.

The only executable source file shipped with the repository snapshot is the
Cython interpolation kernel `scalex` in `src/mutwo/core_utilities/_tools.pyx`;
it is embedded below over the real numbers.  The envelope and event-tree
implementation itself is not part of the snapshot (only its documentation and
changelogs are), so those operations are modelled from the specification text,
as marked by `Modelled from the spec:` in their doc comments.

Durations of event trees are modelled with `ℚ` (the library represents
durations with exact fractions); envelope values, times and curve shapes are
modelled with `ℝ` (the library uses floating-point numbers there, which we
idealise as reals).
-/

namespace Mutwo

open Real

/-- Embedding of `scalex` from `src/mutwo/core_utilities/_tools.pyx`.

The Cython source computes
`old_span = old_max - old_min`, `percentage = (value - old_min) / old_span`,
`new_range = new_max - new_min`, then branches on the truthiness of
`translation_shape`: for a nonzero shape the result is
`(new_range / (exp(translation_shape) - 1)) * (exp(translation_shape * percentage) - 1) + new_min`,
otherwise `new_range * percentage + new_min`. -/
noncomputable def scalex (value old_min old_max new_min new_max translation_shape : ℝ) : ℝ :=
  let old_span := old_max - old_min
  let percentage := (value - old_min) / old_span
  let new_range := new_max - new_min
  (if translation_shape = 0 then
    new_range * percentage
  else
    (new_range / (Real.exp translation_shape - 1)) * (Real.exp (translation_shape * percentage) - 1))
  + new_min

/-- At `value = old_min` the percentage is `0`, so both branches of `scalex`
contribute nothing and the result is `new_min`. -/
theorem scalex_at_old_min (old_min old_max new_min new_max s : ℝ) :
    scalex old_min old_min old_max new_min new_max s = new_min := by
  unfold scalex
  simp

/-- At `value = old_max` with a nondegenerate old range the percentage is `1`,
so `scalex` returns `new_max` (for a nonzero shape this uses the fact that
`Real.exp s ≠ 1`). -/
theorem scalex_at_old_max (old_min old_max new_min new_max s : ℝ)
    (h : old_min ≠ old_max) :
    scalex old_max old_min old_max new_min new_max s = new_max := by
  unfold scalex
  have hspan : old_max - old_min ≠ 0 := sub_ne_zero.mpr (Ne.symm h)
  have hpct : (old_max - old_min) / (old_max - old_min) = 1 := div_self hspan
  by_cases hs : s = 0
  · simp [hs, hpct]
  · have hexp : Real.exp s - 1 ≠ 0 := by
      intro hc
      exact hs (Real.exp_injective (by rw [show Real.exp s = 1 by linarith, Real.exp_zero]))
    simp only [hs, if_false, hpct, mul_one]
    field_simp

/-- For a nonzero shape, `Real.exp s - 1` is nonzero; this is the denominator
appearing in the exponential branch of `scalex`. -/
theorem exp_sub_one_ne_zero {s : ℝ} (hs : s ≠ 0) : Real.exp s - 1 ≠ 0 := by
  intro hc
  exact hs (Real.exp_injective (by rw [show Real.exp s = 1 by linarith, Real.exp_zero]))

/-- C9: for every translation shape and every old range with distinct
endpoints, `scalex` maps `old_min` to `new_min` and `old_max` to `new_max`. -/
theorem scalex_maps_endpoints (old_min old_max new_min new_max s : ℝ)
    (h : old_min ≠ old_max) :
    scalex old_min old_min old_max new_min new_max s = new_min ∧
      scalex old_max old_min old_max new_min new_max s = new_max :=
  ⟨scalex_at_old_min old_min old_max new_min new_max s,
    scalex_at_old_max old_min old_max new_min new_max s h⟩

/-- Witness for C9 at the concrete input `old_min = 0`, `old_max = 1`,
`new_min = 2`, `new_max = 7`, shape `3`. -/
theorem scalex_maps_endpoints_witness :
    (0 : ℝ) ≠ 1 ∧ scalex 0 0 1 2 7 3 = 2 ∧ scalex 1 0 1 2 7 3 = 7 := by
  have h : (0 : ℝ) ≠ 1 := zero_ne_one
  have h2 := scalex_maps_endpoints 0 1 2 7 3 h
  exact ⟨h, h2.1, h2.2⟩

/-! ## Envelope model

The envelope implementation (`mutwo.core_events.Envelope`) is not part of the
source snapshot; the definitions below are modelled from §4.3 of the
specification.  An envelope is a list of control points, each carrying an
absolute time, a value and the curve shape of the segment starting at the
point; the interpolation kernel of a segment is the `scalex` function embedded
above from the repository source. -/

/-- A control point of an envelope: absolute time, value, and the curve shape
of the interpolation segment that starts at this point. -/
structure Point where
  time : ℝ
  value : ℝ
  shape : ℝ

/-- Modelled from the spec: the error taxonomy of envelope queries (§7).
`emptyEnvelope` is the dedicated error for queries on an envelope with zero
points, distinguishable from the not-found error of `point_at` and from the
degenerate-interval error of `get_average_value`. -/
inductive EnvelopeError where
  | emptyEnvelope
  | pointNotFound
  | zeroAverageInterval
  deriving DecidableEq

/-- An envelope is a finite list of control points (in ascending time order;
well-formedness is stated separately as `SortedEnv`). -/
abbrev Env := List Point

/-- The well-formedness invariant of an envelope: the absolute times of its
points are strictly increasing. -/
def SortedEnv (ps : Env) : Prop :=
  List.Chain' (fun p q => p.time < q.time) ps

/-- Modelled from the spec: the value of a nonempty envelope `p :: rest` at
time `t`.  Before the first point the first value is returned (clamped); after
the last point the last value (clamped); otherwise the bracketing pair of
points interpolates through the `scalex` kernel with the segment's curve
shape. -/
noncomputable def valueAtAux : Point → Env → ℝ → ℝ
  | p, [], _ => p.value
  | p, q :: qs, t =>
    if t ≤ p.time then p.value
    else if t ≤ q.time then scalex t p.time q.time p.value q.value p.shape
    else valueAtAux q qs t

/-- Modelled from the spec: `Envelope.value_at`; fails with the dedicated
empty-envelope error on an envelope with zero points. -/
noncomputable def valueAt (ps : Env) (t : ℝ) : Except EnvelopeError ℝ :=
  match ps with
  | [] => .error .emptyEnvelope
  | p :: rest => .ok (valueAtAux p rest t)

/-- Modelled from the spec: `Envelope.curve_shape_at`, the shape active for
the interpolation segment containing `t` (clamped at the ends). -/
noncomputable def curveShapeAtAux (p : Point) (rest : Env) (t : ℝ) : ℝ :=
  match rest with
  | [] => p.shape
  | q :: qs => if t ≤ q.time then p.shape else curveShapeAtAux q qs t

/-- Modelled from the spec: `Envelope.curve_shape_at`; fails with the
empty-envelope error on zero points. -/
noncomputable def curveShapeAt (ps : Env) (t : ℝ) : Except EnvelopeError ℝ :=
  match ps with
  | [] => .error .emptyEnvelope
  | p :: rest => .ok (curveShapeAtAux p rest t)

/-- Modelled from the spec: `Envelope.point_at`, which returns the point lying
exactly at `t` or fails with a not-found condition; on an empty envelope it
fails with the empty-envelope error. -/
noncomputable def pointAtAux (ps : Env) (t : ℝ) : Except EnvelopeError Point :=
  match ps with
  | [] => .error .pointNotFound
  | p :: rest => if p.time = t then .ok p else pointAtAux rest t

/-- Modelled from the spec: `Envelope.point_at` (empty envelopes are reported
through the dedicated empty error). -/
noncomputable def pointAt (ps : Env) (t : ℝ) : Except EnvelopeError Point :=
  match ps with
  | [] => .error .emptyEnvelope
  | _ => pointAtAux ps t

/-- The closed-form antiderivative of one interpolation segment from `p` to
`q`, evaluated as the integral from `p.time` to `t` of the segment's
interpolant: for shape `0` the trapezoid formula, otherwise the antiderivative
of the exponential interpolation formula. -/
noncomputable def segIntFrom (p q : Point) (t : ℝ) : ℝ :=
  if p.shape = 0 then
    p.value * (t - p.time) +
      (q.value - p.value) * (t - p.time) ^ 2 / (2 * (q.time - p.time))
  else
    p.value * (t - p.time) +
      (q.value - p.value) / (Real.exp p.shape - 1) *
        ((q.time - p.time) / p.shape *
            (Real.exp (p.shape * ((t - p.time) / (q.time - p.time))) - 1) -
          (t - p.time))

/-- The cumulative integral of a nonempty envelope `p :: rest` from the time
of `p` up to `t`, assembled segment by segment from the closed-form
antiderivatives (`t` beyond the last point contributes the clamped constant
value). -/
noncomputable def cumAux (p : Point) (rest : Env) (t : ℝ) : ℝ :=
  match rest with
  | [] => p.value * (t - p.time)
  | q :: qs =>
    if t ≤ q.time then segIntFrom p q t
    else segIntFrom p q q.time + cumAux q qs t

/-- The cumulative integral of an envelope from its first point's time to `t`
(negative for `t` before the first point, where the clamped first value
extends as a constant). -/
noncomputable def cum (ps : Env) (t : ℝ) : ℝ :=
  match ps with
  | [] => 0
  | p :: rest => if t ≤ p.time then p.value * (t - p.time) else cumAux p rest t

/-- Modelled from the spec: `Envelope.integrate_interval`, the exact analytic
integral of the interpolation over `[start, end]`, computed as a difference of
the cumulative closed-form antiderivative; fails with the empty-envelope
error on zero points. -/
noncomputable def integrateInterval (ps : Env) (a b : ℝ) : Except EnvelopeError ℝ :=
  match ps with
  | [] => .error .emptyEnvelope
  | _ => .ok (cum ps b - cum ps a)

/-- Modelled from the spec: `Envelope.get_average_value`, the integral divided
by the interval length; fails on an empty envelope and on a degenerate
interval. -/
noncomputable def averageValue (ps : Env) (a b : ℝ) : Except EnvelopeError ℝ :=
  match ps with
  | [] => .error .emptyEnvelope
  | _ => if a = b then .error .zeroAverageInterval else .ok ((cum ps b - cum ps a) / (b - a))

/-- C8: every query operation on an envelope with zero points fails with the
dedicated `EnvelopeError.emptyEnvelope` error, which is distinguishable from
the generic not-found and degenerate-interval errors; no query on an empty
envelope returns a value. -/
theorem empty_envelope_queries_fail :
    (∀ t : ℝ, valueAt [] t = .error .emptyEnvelope) ∧
    (∀ t : ℝ, curveShapeAt [] t = .error .emptyEnvelope) ∧
    (∀ t : ℝ, pointAt [] t = .error .emptyEnvelope) ∧
    (∀ a b : ℝ, integrateInterval [] a b = .error .emptyEnvelope) ∧
    (∀ a b : ℝ, averageValue [] a b = .error .emptyEnvelope) ∧
    EnvelopeError.emptyEnvelope ≠ EnvelopeError.pointNotFound ∧
    EnvelopeError.emptyEnvelope ≠ EnvelopeError.zeroAverageInterval := by
  refine ⟨fun t => rfl, fun t => rfl, fun t => rfl, fun a b => rfl, fun a b => rfl, ?_, ?_⟩ <;>
    decide

/-- In a sorted nonempty envelope the head's time is at most the last point's
time. -/
theorem head_time_le_getLast (p : Point) (rest : Env) (h : SortedEnv (p :: rest)) :
    p.time ≤ (List.getLast (p :: rest) (List.cons_ne_nil p rest)).time := by
  induction rest generalizing p with
  | nil => simp
  | cons q qs ih =>
    have hpq : p.time < q.time := (List.chain'_cons.mp h).1
    have h2 := ih q (List.chain'_cons.mp h).2
    rw [List.getLast_cons (List.cons_ne_nil q qs)]
    exact le_trans (le_of_lt hpq) h2

/-- For `t` at or after the last point's time, the interpolation walk returns
the last point's value. -/
theorem valueAtAux_of_last_le (p : Point) (rest : Env) (h : SortedEnv (p :: rest)) (t : ℝ)
    (ht : (List.getLast (p :: rest) (List.cons_ne_nil p rest)).time ≤ t) :
    valueAtAux p rest t = (List.getLast (p :: rest) (List.cons_ne_nil p rest)).value := by
  induction rest generalizing p with
  | nil => simp [valueAtAux]
  | cons q qs ih =>
    have hpq : p.time < q.time := (List.chain'_cons.mp h).1
    have hq : SortedEnv (q :: qs) := (List.chain'_cons.mp h).2
    rw [List.getLast_cons (List.cons_ne_nil q qs)] at ht ⊢
    have hqlast : q.time ≤ (List.getLast (q :: qs) (List.cons_ne_nil q qs)).time :=
      head_time_le_getLast q qs hq
    have hpt : ¬ t ≤ p.time := not_le.mpr (lt_of_lt_of_le hpq (le_trans hqlast ht))
    rw [valueAtAux, if_neg hpt]
    by_cases htq : t ≤ q.time
    · cases qs with
      | nil =>
        simp only [List.getLast_singleton] at ht ⊢
        have heq : t = q.time := le_antisymm htq ht
        rw [if_pos htq, heq]
        exact scalex_at_old_max p.time q.time p.value q.value p.shape (ne_of_lt hpq)
      | cons r rs =>
        exfalso
        have hqr : q.time < r.time := (List.chain'_cons.mp hq).1
        have hrlast : r.time ≤ (List.getLast (r :: rs) (List.cons_ne_nil r rs)).time :=
          head_time_le_getLast r rs (List.chain'_cons.mp hq).2
        rw [List.getLast_cons (List.cons_ne_nil r rs)] at ht
        exact absurd (le_trans ht htq) (not_le.mpr (lt_of_lt_of_le hqr hrlast))
    · rw [if_neg htq]
      cases qs with
      | nil =>
        simp only [List.getLast_singleton] at ht ⊢
        simp [valueAtAux]
      | cons r rs => exact ih q hq ht

/-- C6: a nonempty sorted envelope clamps outside its point range: at or
before the first point's time `value_at` returns the first point's value, and
at or after the last point's time it returns the last point's value. -/
theorem valueAt_clamps (p : Point) (rest : Env) (h : SortedEnv (p :: rest)) (t : ℝ) :
    (t ≤ p.time → valueAt (p :: rest) t = .ok p.value) ∧
    ((List.getLast (p :: rest) (List.cons_ne_nil p rest)).time ≤ t →
      valueAt (p :: rest) t = .ok (List.getLast (p :: rest) (List.cons_ne_nil p rest)).value) := by
  constructor
  · intro hle
    cases rest with
    | nil => simp [valueAt, valueAtAux]
    | cons q qs => simp [valueAt, valueAtAux, hle]
  · intro hge
    rw [valueAt, valueAtAux_of_last_le p rest h t hge]

/-- Witness for C6 on the envelope with points `(0, 2)` and `(1, 5)`: at time
`-1` the value is the first point's value `2`, and at time `3` the last
point's value `5`. -/
theorem valueAt_clamps_witness :
    valueAt [⟨0, 2, 0⟩, ⟨1, 5, 0⟩] (-1) = .ok 2 ∧
      valueAt [⟨0, 2, 0⟩, ⟨1, 5, 0⟩] 3 = .ok 5 := by
  have hs : SortedEnv [⟨0, 2, 0⟩, ⟨1, 5, 0⟩] := by
    simp [SortedEnv, List.chain'_cons]
  have h1 := (valueAt_clamps ⟨0, 2, 0⟩ [⟨1, 5, 0⟩] hs (-1)).1 (by norm_num)
  have h2 := (valueAt_clamps ⟨0, 2, 0⟩ [⟨1, 5, 0⟩] hs 3).2 (by norm_num [List.getLast])
  refine ⟨h1, ?_⟩
  rw [h2]
  norm_num [List.getLast]

/-- The value walk of an envelope as a total function (`0` on the empty
envelope, which is otherwise guarded by the `EmptyEnvelopeError`). -/
noncomputable def valueList : Env → ℝ → ℝ
  | [], _ => 0
  | p :: rest, t => valueAtAux p rest t

/-- `valueAt` on a nonempty envelope is the `valueList` walk. -/
theorem valueAt_eq_valueList (p : Point) (rest : Env) (t : ℝ) :
    valueAt (p :: rest) t = .ok (valueList (p :: rest) t) := rfl

/-- In a sorted envelope the head's time is strictly below every later
point's time. -/
theorem sorted_head_lt (r : Point) (l : Env) (h : SortedEnv (r :: l)) :
    ∀ x ∈ l, r.time < x.time := by
  induction l generalizing r with
  | nil => intro x hx; cases hx
  | cons q qs ih =>
    intro x hx
    have hrq : r.time < q.time := (List.chain'_cons.mp h).1
    rcases List.mem_cons.mp hx with hxq | hxs
    · rw [hxq]; exact hrq
    · exact lt_trans hrq (ih q (List.chain'_cons.mp h).2 x hxs)

/-- Interpolation through a bracketing segment: for a sorted envelope
containing the consecutive points `x` and `y` and a query time between them,
the value walk evaluates the `scalex` kernel on that segment. -/
theorem valueList_bracket (pre : Env) (x y : Point) (post : Env) (t : ℝ)
    (h : SortedEnv (pre ++ x :: y :: post)) (hx : x.time ≤ t) (hy : t ≤ y.time) :
    valueList (pre ++ x :: y :: post) t =
      scalex t x.time y.time x.value y.value x.shape := by
  induction pre with
  | nil =>
    simp only [List.nil_append, valueList]
    rw [valueAtAux]
    by_cases h1 : t ≤ x.time
    · have heq : t = x.time := le_antisymm h1 hx
      rw [if_pos h1, heq]
      exact (scalex_at_old_min x.time y.time x.value y.value x.shape).symm
    · rw [if_neg h1, if_pos hy]
  | cons r pre2 ih =>
    have hsort2 : SortedEnv (pre2 ++ x :: y :: post) := List.Chain'.tail h
    have hrx : r.time < x.time := by
      apply sorted_head_lt r (pre2 ++ x :: y :: post) h
      simp
    have hrt : ¬ t ≤ r.time := not_le.mpr (lt_of_lt_of_le hrx hx)
    cases pre2 with
    | nil =>
      simp only [List.nil_append] at hsort2 ih ⊢
      simp only [List.cons_append, List.nil_append, valueList]
      rw [valueAtAux, if_neg hrt]
      by_cases h2 : t ≤ x.time
      · have heq : t = x.time := le_antisymm h2 hx
        rw [if_pos h2, heq,
          scalex_at_old_max r.time x.time r.value x.value r.shape (ne_of_lt hrx)]
        exact (scalex_at_old_min x.time y.time x.value y.value x.shape).symm
      · rw [if_neg h2]
        exact ih hsort2
    | cons s pre3 =>
      have hsx : s.time < x.time := by
        apply sorted_head_lt s (pre3 ++ x :: y :: post) hsort2
        simp
      have hst : ¬ t ≤ s.time := not_le.mpr (lt_of_lt_of_le hsx hx)
      simp only [List.cons_append, valueList]
      rw [valueAtAux, if_neg hrt, if_neg hst]
      have := ih hsort2
      simpa [valueList] using this

/-- C1: on a sorted envelope with bracketing points `x` at `t0` and `y` at
`t1` and a query time `t0 ≤ t ≤ t1`, `value_at` interpolates with
`pct = (t - t0) / (t1 - t0)`: for curve shape `0` it returns the linear
interpolation `v0 + (v1 - v0) * pct` (so for two points `(0, v0)`, `(1, v1)`
the value at `1/2` is `(v0 + v1) / 2`), and for a nonzero shape it returns
`v0 + (v1 - v0) * (exp(shape * pct) - 1) / (exp(shape) - 1)`. -/
theorem valueAt_interpolates (pre : Env) (x y : Point) (post : Env) (t : ℝ)
    (h : SortedEnv (pre ++ x :: y :: post)) (hx : x.time ≤ t) (hy : t ≤ y.time) :
    (x.shape = 0 →
      valueAt (pre ++ x :: y :: post) t =
        .ok (x.value + (y.value - x.value) * ((t - x.time) / (y.time - x.time)))) ∧
    (x.shape ≠ 0 →
      valueAt (pre ++ x :: y :: post) t =
        .ok (x.value +
          (y.value - x.value) *
              (Real.exp (x.shape * ((t - x.time) / (y.time - x.time))) - 1) /
            (Real.exp x.shape - 1))) ∧
    (∀ v0 v1 : ℝ, valueAt [⟨0, v0, 0⟩, ⟨1, v1, 0⟩] (1 / 2) = .ok ((v0 + v1) / 2)) := by
  have hne : (pre ++ x :: y :: post) ≠ [] := by simp
  have hbr := valueList_bracket pre x y post t h hx hy
  have hval : valueAt (pre ++ x :: y :: post) t =
      .ok (scalex t x.time y.time x.value y.value x.shape) := by
    cases hps : pre ++ x :: y :: post with
    | nil => exact absurd hps hne
    | cons p rest =>
      rw [valueAt_eq_valueList, ← hps, hbr]
  refine ⟨?_, ?_, ?_⟩
  · intro hsh
    rw [hval]
    simp only [scalex]
    rw [if_pos hsh]
    simp only [Except.ok.injEq]
    ring
  · intro hsh
    rw [hval]
    simp only [scalex]
    rw [if_neg hsh]
    simp only [Except.ok.injEq]
    ring
  · intro v0 v1
    rw [valueAt_eq_valueList]
    simp only [valueList, valueAtAux, scalex]
    norm_num
    ring

/-- Witness for C1: the sorted two-point envelope `(0, 1)`, `(2, 5)` with
shape `0`, queried at `t = 1`, yields the linear interpolation value. -/
theorem valueAt_interpolates_witness :
    valueAt [⟨0, 1, 0⟩, ⟨2, 5, 0⟩] 1 =
      .ok (Point.value ⟨0, 1, 0⟩ +
        (Point.value ⟨2, 5, 0⟩ - Point.value ⟨0, 1, 0⟩) *
          ((1 - Point.time ⟨0, 1, 0⟩) /
            (Point.time ⟨2, 5, 0⟩ - Point.time ⟨0, 1, 0⟩))) := by
  have hs : SortedEnv [⟨0, 1, 0⟩, ⟨2, 5, 0⟩] := by
    simp only [SortedEnv, List.chain'_cons, List.chain'_singleton, and_true]
    norm_num
  exact (valueAt_interpolates [] ⟨0, 1, 0⟩ ⟨2, 5, 0⟩ [] 1 hs (by norm_num) (by norm_num)).1 rfl

/-! ## Exactness of `integrate_interval`

The following lemmas connect the closed-form antiderivatives used by
`integrateInterval` with the genuine interval integral of the interpolated
value function. -/

/-- The closed-form segment antiderivative vanishes at the segment start. -/
theorem segIntFrom_at_start (p q : Point) : segIntFrom p q p.time = 0 := by
  by_cases hs : p.shape = 0 <;> simp [segIntFrom, hs]

/-- For `t` at or before a point's time, the value walk is clamped to that
point's value. -/
theorem valueAtAux_of_le (p : Point) (rest : Env) (t : ℝ) (h : t ≤ p.time) :
    valueAtAux p rest t = p.value := by
  cases rest <;> simp [valueAtAux, h]

/-- The segment antiderivative has the `scalex` interpolant of the segment as
its derivative (the segment must be nondegenerate in time). -/
theorem hasDerivAt_segIntFrom (p q : Point) (hΔ : p.time ≠ q.time) (t : ℝ) :
    HasDerivAt (segIntFrom p q)
      (scalex t p.time q.time p.value q.value p.shape) t := by
  have hΔ0 : q.time - p.time ≠ 0 := sub_ne_zero.mpr (Ne.symm hΔ)
  have h1 : HasDerivAt (fun u : ℝ => u - p.time) 1 t := (hasDerivAt_id t).sub_const _
  have h2 : HasDerivAt (fun u : ℝ => p.value * (u - p.time)) p.value t := by
    simpa using h1.const_mul p.value
  by_cases hs : p.shape = 0
  · have h3 : HasDerivAt (fun u : ℝ => (u - p.time) ^ 2) (2 * (t - p.time)) t := by
      have := h1.pow 2
      simpa [mul_comm] using this
    have h4 : HasDerivAt
        (fun u : ℝ => (q.value - p.value) * (u - p.time) ^ 2 / (2 * (q.time - p.time)))
        ((q.value - p.value) * (2 * (t - p.time)) / (2 * (q.time - p.time))) t :=
      (h3.const_mul (q.value - p.value)).div_const _
    have h5 := h2.add h4
    have heq : ∀ u : ℝ, segIntFrom p q u =
        p.value * (u - p.time) +
          (q.value - p.value) * (u - p.time) ^ 2 / (2 * (q.time - p.time)) := by
      intro u; simp [segIntFrom, hs]
    rw [show segIntFrom p q = fun u =>
        p.value * (u - p.time) +
          (q.value - p.value) * (u - p.time) ^ 2 / (2 * (q.time - p.time)) from funext heq]
    convert h5 using 1
    simp only [scalex, hs, if_pos]
    field_simp
    ring
  · have hinner : HasDerivAt
        (fun u : ℝ => p.shape * ((u - p.time) / (q.time - p.time)))
        (p.shape * (1 / (q.time - p.time))) t := by
      have := (h1.div_const (q.time - p.time)).const_mul p.shape
      simpa using this
    have hexp : HasDerivAt
        (fun u : ℝ => Real.exp (p.shape * ((u - p.time) / (q.time - p.time))))
        (Real.exp (p.shape * ((t - p.time) / (q.time - p.time))) *
          (p.shape * (1 / (q.time - p.time)))) t := hinner.exp
    have h3 : HasDerivAt
        (fun u : ℝ =>
          (q.time - p.time) / p.shape *
            (Real.exp (p.shape * ((u - p.time) / (q.time - p.time))) - 1))
        ((q.time - p.time) / p.shape *
          (Real.exp (p.shape * ((t - p.time) / (q.time - p.time))) *
            (p.shape * (1 / (q.time - p.time))))) t := by
      have := (hexp.sub_const 1).const_mul ((q.time - p.time) / p.shape)
      simpa using this
    have h4 : HasDerivAt
        (fun u : ℝ =>
          (q.value - p.value) / (Real.exp p.shape - 1) *
            ((q.time - p.time) / p.shape *
                (Real.exp (p.shape * ((u - p.time) / (q.time - p.time))) - 1) -
              (u - p.time)))
        ((q.value - p.value) / (Real.exp p.shape - 1) *
          ((q.time - p.time) / p.shape *
              (Real.exp (p.shape * ((t - p.time) / (q.time - p.time))) *
                (p.shape * (1 / (q.time - p.time)))) -
            1)) t := by
      have := (h3.sub h1).const_mul ((q.value - p.value) / (Real.exp p.shape - 1))
      simpa using this
    have h5 := h2.add h4
    have heq : ∀ u : ℝ, segIntFrom p q u =
        p.value * (u - p.time) +
          (q.value - p.value) / (Real.exp p.shape - 1) *
            ((q.time - p.time) / p.shape *
                (Real.exp (p.shape * ((u - p.time) / (q.time - p.time))) - 1) -
              (u - p.time)) := by
      intro u; simp [segIntFrom, hs]
    rw [show segIntFrom p q = fun u =>
        p.value * (u - p.time) +
          (q.value - p.value) / (Real.exp p.shape - 1) *
            ((q.time - p.time) / p.shape *
                (Real.exp (p.shape * ((u - p.time) / (q.time - p.time))) - 1) -
              (u - p.time)) from funext heq]
    convert h5 using 1
    simp only [scalex, hs, if_neg, if_false]
    have hE : (q.time - p.time) / p.shape *
        (Real.exp (p.shape * ((t - p.time) / (q.time - p.time))) *
          (p.shape * (1 / (q.time - p.time)))) =
        Real.exp (p.shape * ((t - p.time) / (q.time - p.time))) := by
      field_simp
      ring
    rw [hE]
    ring

/-- The `scalex` kernel is continuous in the interpolated variable. -/
theorem continuous_scalex (t0 t1 v0 v1 s : ℝ) :
    Continuous fun t => scalex t t0 t1 v0 v1 s := by
  by_cases hs : s = 0
  · simp only [scalex, hs, if_pos]
    fun_prop
  · simp only [scalex, hs, if_neg, if_false]
    fun_prop

/-- The interpolation walk of a sorted envelope is a continuous function of
the query time: the segment kernels agree with the clamped values at every
point boundary. -/
theorem continuous_valueAtAux (p : Point) (rest : Env) (h : SortedEnv (p :: rest)) :
    Continuous fun t => valueAtAux p rest t := by
  induction rest generalizing p with
  | nil =>
    simp only [valueAtAux]
    exact continuous_const
  | cons q qs ih =>
    have hpq : p.time < q.time := (List.chain'_cons.mp h).1
    have hq : SortedEnv (q :: qs) := (List.chain'_cons.mp h).2
    have hinner : Continuous fun t =>
        if t ≤ q.time then scalex t p.time q.time p.value q.value p.shape
        else valueAtAux q qs t := by
      apply Continuous.if_le (continuous_scalex p.time q.time p.value q.value p.shape)
        (ih q hq) continuous_id continuous_const
      intro t ht
      have ht' : t = q.time := ht
      rw [ht', scalex_at_old_max p.time q.time p.value q.value p.shape (ne_of_lt hpq),
        valueAtAux_of_le q qs q.time le_rfl]
    have houter : Continuous fun t =>
        if t ≤ p.time then p.value
        else if t ≤ q.time then scalex t p.time q.time p.value q.value p.shape
        else valueAtAux q qs t := by
      apply Continuous.if_le continuous_const hinner continuous_id continuous_const
      intro t ht
      have ht' : t = p.time := ht
      rw [ht', if_pos (le_of_lt hpq)]
      exact (scalex_at_old_min p.time q.time p.value q.value p.shape).symm
    have heq : (fun t => valueAtAux p (q :: qs) t) = fun t =>
        if t ≤ p.time then p.value
        else if t ≤ q.time then scalex t p.time q.time p.value q.value p.shape
        else valueAtAux q qs t := by
      funext t
      rw [valueAtAux]
    rw [heq]
    exact houter

/-- On the bracketing segment the interpolation walk agrees with the raw
`scalex` kernel of the segment. -/
theorem valueAtAux_eqOn_seg (p q : Point) (qs : Env) (u : ℝ)
    (h1 : p.time ≤ u) (h2 : u ≤ q.time) :
    valueAtAux p (q :: qs) u = scalex u p.time q.time p.value q.value p.shape := by
  rw [valueAtAux]
  by_cases hu : u ≤ p.time
  · have heq : u = p.time := le_antisymm hu h1
    rw [if_pos hu, heq]
    exact (scalex_at_old_min p.time q.time p.value q.value p.shape).symm
  · rw [if_neg hu, if_pos h2]

/-- Past the second point the interpolation walk of `p :: q :: qs` coincides
with the walk of `q :: qs` (the envelope must be sorted through `q`). -/
theorem valueAtAux_eqOn_tail (p q : Point) (qs : Env) (hpq : p.time < q.time) (u : ℝ)
    (h1 : q.time ≤ u) :
    valueAtAux p (q :: qs) u = valueAtAux q qs u := by
  rw [valueAtAux]
  have hu : ¬ u ≤ p.time := not_le.mpr (lt_of_lt_of_le hpq h1)
  rw [if_neg hu]
  by_cases huq : u ≤ q.time
  · have heq : u = q.time := le_antisymm huq h1
    rw [if_pos huq, heq,
      scalex_at_old_max p.time q.time p.value q.value p.shape (ne_of_lt hpq),
      valueAtAux_of_le q qs q.time le_rfl]
  · rw [if_neg huq]

/-- The closed-form cumulative antiderivative of a sorted envelope equals the
interval integral of the interpolated value from the first point's time. -/
theorem cum_eq_integral (p : Point) (rest : Env) (h : SortedEnv (p :: rest)) (t : ℝ) :
    cum (p :: rest) t = ∫ u in p.time..t, valueAtAux p rest u := by
  induction rest generalizing p t with
  | nil =>
    have hval : (fun u => valueAtAux p ([] : Env) u) = fun _ => p.value := by
      funext u; simp [valueAtAux]
    rw [hval, intervalIntegral.integral_const, smul_eq_mul]
    simp [cum, cumAux, mul_comm]
  | cons q qs ih =>
    have hpq : p.time < q.time := (List.chain'_cons.mp h).1
    have hq : SortedEnv (q :: qs) := (List.chain'_cons.mp h).2
    have hcont : Continuous fun u => valueAtAux p (q :: qs) u := continuous_valueAtAux p _ h
    have hseg : ∀ a b : ℝ,
        (∫ u in a..b, scalex u p.time q.time p.value q.value p.shape) =
          segIntFrom p q b - segIntFrom p q a := by
      intro a b
      exact intervalIntegral.integral_eq_sub_of_hasDerivAt
        (fun x _ => hasDerivAt_segIntFrom p q (ne_of_lt hpq) x)
        ((continuous_scalex p.time q.time p.value q.value p.shape).intervalIntegrable a b)
    rcases le_or_lt t p.time with hcase | hcase
    · rw [cum, if_pos hcase]
      have hcongr : ∀ u ∈ Set.uIcc p.time t, valueAtAux p (q :: qs) u = p.value := by
        intro u hu
        have hle : u ≤ p.time := by
          rcases Set.mem_uIcc.mp hu with h1 | h1
          · exact le_trans h1.2 hcase
          · exact h1.2
        exact valueAtAux_of_le p _ u hle
      rw [intervalIntegral.integral_congr hcongr, intervalIntegral.integral_const,
        smul_eq_mul]
      ring
    · rcases le_or_lt t q.time with hcase2 | hcase2
      · rw [cum, if_neg (not_le.mpr hcase), cumAux, if_pos hcase2]
        have hcongr : ∀ u ∈ Set.uIcc p.time t,
            valueAtAux p (q :: qs) u = scalex u p.time q.time p.value q.value p.shape := by
          intro u hu
          rw [Set.uIcc_of_le (le_of_lt hcase)] at hu
          exact valueAtAux_eqOn_seg p q qs u hu.1 (le_trans hu.2 hcase2)
        rw [intervalIntegral.integral_congr hcongr, hseg, segIntFrom_at_start, sub_zero]
      · rw [cum, if_neg (not_le.mpr hcase), cumAux, if_neg (not_le.mpr hcase2)]
        have hsplit : (∫ u in p.time..t, valueAtAux p (q :: qs) u) =
            (∫ u in p.time..q.time, valueAtAux p (q :: qs) u) +
              ∫ u in q.time..t, valueAtAux p (q :: qs) u :=
          (intervalIntegral.integral_add_adjacent_intervals
            (hcont.intervalIntegrable _ _) (hcont.intervalIntegrable _ _)).symm
        rw [hsplit]
        have hfirst : (∫ u in p.time..q.time, valueAtAux p (q :: qs) u) =
            segIntFrom p q q.time := by
          have hcongr : ∀ u ∈ Set.uIcc p.time q.time,
              valueAtAux p (q :: qs) u =
                scalex u p.time q.time p.value q.value p.shape := by
            intro u hu
            rw [Set.uIcc_of_le (le_of_lt hpq)] at hu
            exact valueAtAux_eqOn_seg p q qs u hu.1 hu.2
          rw [intervalIntegral.integral_congr hcongr, hseg, segIntFrom_at_start, sub_zero]
        have hsecond : (∫ u in q.time..t, valueAtAux p (q :: qs) u) =
            ∫ u in q.time..t, valueAtAux q qs u := by
          apply intervalIntegral.integral_congr
          intro u hu
          rw [Set.uIcc_of_le (le_of_lt hcase2)] at hu
          exact valueAtAux_eqOn_tail p q qs hpq u hu.1
        rw [hfirst, hsecond]
        have hcum : cumAux q qs t = cum (q :: qs) t := by
          rw [cum, if_neg (not_le.mpr hcase2)]
        rw [hcum, ih q hq t]

/-- On a segment whose two endpoints share the value `v`, the closed-form
antiderivative is the one of the constant `v`. -/
theorem flat_segIntFrom (p q : Point) (v t : ℝ) (hpv : p.value = v) (hqv : q.value = v) :
    segIntFrom p q t = v * (t - p.time) := by
  by_cases hs : p.shape = 0 <;> simp [segIntFrom, hs, hpv, hqv]

/-- The cumulative walk of a flat envelope (every point value `v`) is the
antiderivative of the constant `v`. -/
theorem flat_cumAux (p : Point) (rest : Env) (v t : ℝ) (hpv : p.value = v)
    (hrest : ∀ q ∈ rest, q.value = v) :
    cumAux p rest t = v * (t - p.time) := by
  induction rest generalizing p t with
  | nil => rw [cumAux, hpv]
  | cons q qs ih =>
    have hqv : q.value = v := hrest q (List.mem_cons_self q qs)
    rw [cumAux]
    by_cases hc : t ≤ q.time
    · rw [if_pos hc, flat_segIntFrom p q v t hpv hqv]
    · rw [if_neg hc, flat_segIntFrom p q v q.time hpv hqv,
        ih q t hqv (fun r hr => hrest r (List.mem_cons_of_mem q hr))]
      ring

/-- The cumulative closed form of a flat envelope. -/
theorem flat_cum (p : Point) (rest : Env) (v t : ℝ)
    (hflat : ∀ q ∈ p :: rest, q.value = v) :
    cum (p :: rest) t = v * (t - p.time) := by
  have hpv : p.value = v := hflat p (List.mem_cons_self p rest)
  rw [cum]
  by_cases hc : t ≤ p.time
  · rw [if_pos hc, hpv]
  · rw [if_neg hc,
      flat_cumAux p rest v t hpv (fun r hr => hflat r (List.mem_cons_of_mem p hr))]

/-- C5: `integrate_interval` is the exact analytic integral of the
interpolation: on every sorted nonempty envelope it returns the interval
integral of the interpolated value function (assembled from the per-segment
closed-form antiderivatives, not a numeric quadrature); for a flat envelope
whose points share the value `v` it returns `v * (b - a)`; and on the
envelope with points `(0, 0)`, `(10, 1)` and shape `0` it returns `5` over
`[0, 10]`. -/
theorem integrateInterval_exact :
    (∀ (p : Point) (rest : Env) (a b : ℝ), SortedEnv (p :: rest) →
      integrateInterval (p :: rest) a b = .ok (∫ u in a..b, valueAtAux p rest u)) ∧
    (∀ (v : ℝ) (p : Point) (rest : Env) (a b : ℝ),
      (∀ q ∈ p :: rest, q.value = v) →
      integrateInterval (p :: rest) a b = .ok (v * (b - a))) ∧
    integrateInterval [⟨0, 0, 0⟩, ⟨10, 1, 0⟩] 0 10 = .ok 5 := by
  refine ⟨?_, ?_, ?_⟩
  · intro p rest a b h
    have hcont : Continuous fun u => valueAtAux p rest u := continuous_valueAtAux p rest h
    have hok : integrateInterval (p :: rest) a b =
        .ok (cum (p :: rest) b - cum (p :: rest) a) := rfl
    rw [hok, cum_eq_integral p rest h b, cum_eq_integral p rest h a,
      intervalIntegral.integral_interval_sub_left (hcont.intervalIntegrable _ _)
        (hcont.intervalIntegrable _ _)]
  · intro v p rest a b hflat
    have hok : integrateInterval (p :: rest) a b =
        .ok (cum (p :: rest) b - cum (p :: rest) a) := rfl
    rw [hok, flat_cum p rest v b hflat, flat_cum p rest v a hflat]
    congr 1
    ring
  · have hok : integrateInterval [⟨0, 0, 0⟩, ⟨10, 1, 0⟩] 0 10 =
        .ok (cum [⟨0, 0, 0⟩, ⟨10, 1, 0⟩] 10 - cum [⟨0, 0, 0⟩, ⟨10, 1, 0⟩] 0) := rfl
    rw [hok]
    norm_num [cum, cumAux, segIntFrom]

/-- Witness for C5: a one-point envelope at value `2` integrated over
`[0, 3]` equals the interval integral of its interpolant. -/
theorem integrateInterval_exact_witness :
    integrateInterval [⟨0, 2, 0⟩] 0 3 =
      .ok (∫ u in (0:ℝ)..3, valueAtAux ⟨0, 2, 0⟩ [] u) :=
  integrateInterval_exact.1 ⟨0, 2, 0⟩ [] 0 3 (List.chain'_singleton _)

/-! ## Event trees

The event implementation (`mutwo.core_events`) is absent from the source
snapshot; the tree model and its structural edit operations below are
modelled from §3 and §4.2 of the specification.  Durations are exact
rationals, matching the library's fraction-based `Duration`.  A `chronon` is
a leaf with a duration; a `consec` lays its children end to end (duration =
sum); a `concur` overlays them (duration = max). -/

inductive Ev where
  | chronon (d : ℚ)
  | consec (cs : List Ev)
  | concur (cs : List Ev)

mutual

/-- Modelled from the spec: the duration of an event — a chronon's scalar,
the sum of children for a Consecution, the max (0 if empty) for a
Concurrence; always recomputed from the children. -/
def dur : Ev → ℚ
  | .chronon d => d
  | .consec cs => durSum cs
  | .concur cs => durMax cs

/-- Sum of the durations of a list of events. -/
def durSum : List Ev → ℚ
  | [] => 0
  | c :: cs => dur c + durSum cs

/-- Max of the durations of a list of events (`0` if empty). -/
def durMax : List Ev → ℚ
  | [] => 0
  | c :: cs => max (dur c) (durMax cs)

end

/-- The direct children of an event (none for a chronon). -/
def children : Ev → List Ev
  | .chronon _ => []
  | .consec cs => cs
  | .concur cs => cs

mutual

/-- The invariant that every leaf duration in a tree is nonnegative
(spec §3: a Duration is always ≥ 0). -/
def NonnegEv : Ev → Prop
  | .chronon d => 0 ≤ d
  | .consec cs => NonnegList cs
  | .concur cs => NonnegList cs

/-- `NonnegEv` for every member of a list of events. -/
def NonnegList : List Ev → Prop
  | [] => True
  | c :: cs => NonnegEv c ∧ NonnegList cs

end

mutual

theorem dur_nonneg : ∀ e : Ev, NonnegEv e → 0 ≤ dur e
  | .chronon d, h => by simpa [dur, NonnegEv] using h
  | .consec cs, h => by
    rw [dur]
    exact durSum_nonneg cs (by simpa [NonnegEv] using h)
  | .concur cs, h => by
    rw [dur]
    exact durMax_nonneg cs (by simpa [NonnegEv] using h)

theorem durSum_nonneg : ∀ cs : List Ev, NonnegList cs → 0 ≤ durSum cs
  | [], _ => by simp [durSum]
  | c :: cs, h => by
    rw [durSum]
    have h1 := dur_nonneg c h.1
    have h2 := durSum_nonneg cs h.2
    linarith

theorem durMax_nonneg : ∀ cs : List Ev, NonnegList cs → 0 ≤ durMax cs
  | [], _ => by simp [durMax]
  | c :: cs, h => by
    rw [durMax]
    exact le_max_of_le_right (durMax_nonneg cs h.2)

end

mutual

/-- Modelled from the spec: `cut_out(start, end)` keeps only the portion of
every child overlapping the window, slices partial children recursively and
rebases the result to start at `0` (§4.2).  A chronon keeps the clamped
overlap of its own span with the window. -/
def cutOut : ℚ → ℚ → Ev → Ev
  | a, b, .chronon d => .chronon (max 0 (min b d - max a 0))
  | a, b, .consec cs => .consec (cutSeq a b cs)
  | a, b, .concur cs => .concur (cutPar a b cs)

/-- `cut_out` on consecutive children: the window slides by each child's
duration; children without strict overlap are dropped. -/
def cutSeq : ℚ → ℚ → List Ev → List Ev
  | _, _, [] => []
  | a, b, c :: cs =>
    (if a < dur c ∧ 0 < b then [cutOut (max a 0) (min b (dur c)) c] else [])
      ++ cutSeq (a - dur c) (b - dur c) cs

/-- `cut_out` on concurrent children: every child is sliced against the same
window, clamped to its own span; children without strict overlap are
dropped. -/
def cutPar : ℚ → ℚ → List Ev → List Ev
  | _, _, [] => []
  | a, b, c :: cs =>
    (if a < dur c ∧ 0 < b then [cutOut (max a 0) (min b (dur c)) c] else [])
      ++ cutPar a b cs

end

/-- Clamped-overlap arithmetic: a window with no strict overlap contributes
zero length. -/
theorem overlap_zero (a b d : ℚ) (h : ¬(a < d ∧ 0 < b)) :
    max 0 (min b d - max a 0) = 0 := by
  rcases not_and_or.mp h with h1 | h1
  · push_neg at h1
    have : min b d ≤ max a 0 := le_trans (min_le_right b d) (le_trans h1 (le_max_left a 0))
    exact max_eq_left (by linarith)
  · push_neg at h1
    have : min b d ≤ max a 0 := le_trans (min_le_left b d) (le_trans h1 (le_max_right a 0))
    exact max_eq_left (by linarith)

/-- Clamped-overlap arithmetic: the overlap of a window with `[0, d + S]`
splits at `d` into the overlaps with `[0, d]` and (shifted) `[0, S]`. -/
theorem overlap_split (a b d S : ℚ) (hd : 0 ≤ d) (hS : 0 ≤ S) :
    max 0 (min b (d + S) - max a 0) =
      max 0 (min b d - max a 0) + max 0 (min (b - d) S - max (a - d) 0) := by
  simp only [min_def, max_def]
  split_ifs <;> linarith

/-- Clamped-overlap arithmetic: the overlap with `[0, max d M]` is the max of
the overlaps with `[0, d]` and `[0, M]`. -/
theorem overlap_max (a b d M : ℚ) :
    max 0 (min b (max d M) - max a 0) =
      max (max 0 (min b d - max a 0)) (max 0 (min b M - max a 0)) := by
  simp only [min_def, max_def]
  split_ifs <;> linarith

/-- Sum of durations distributes over list append. -/
theorem durSum_append (xs ys : List Ev) :
    durSum (xs ++ ys) = durSum xs + durSum ys := by
  induction xs with
  | nil => simp [durSum]
  | cons c cs ih => rw [List.cons_append, durSum, durSum, ih]; ring

/-- The max of durations of a list is never negative (it is `0` when
empty). -/
theorem durMax_nonneg_always (ys : List Ev) : 0 ≤ durMax ys := by
  induction ys with
  | nil => rw [durMax]
  | cons c cs ih => rw [durMax]; exact le_max_of_le_right ih

/-- Max of durations distributes over list append. -/
theorem durMax_append (xs ys : List Ev) :
    durMax (xs ++ ys) = max (durMax xs) (durMax ys) := by
  induction xs with
  | nil => simp [durMax, max_eq_right (durMax_nonneg_always ys)]
  | cons c cs ih => rw [List.cons_append, durMax, durMax, ih, max_assoc]

mutual

theorem dur_cutOut : ∀ (e : Ev) (a b : ℚ), NonnegEv e → a ≤ b →
    dur (cutOut a b e) = max 0 (min b (dur e) - max a 0)
  | .chronon d, a, b, _, _ => by rw [cutOut, dur, dur]
  | .consec cs, a, b, h, hab => by
    rw [cutOut, dur, dur]
    exact dur_cutSeq cs a b h hab
  | .concur cs, a, b, h, hab => by
    rw [cutOut, dur, dur]
    exact dur_cutPar cs a b h hab

theorem dur_cutSeq : ∀ (cs : List Ev) (a b : ℚ), NonnegList cs → a ≤ b →
    durSum (cutSeq a b cs) = max 0 (min b (durSum cs) - max a 0)
  | [], a, b, _, _ => by
    rw [cutSeq, durSum]
    have h1 : min b 0 - max a 0 ≤ 0 := by
      have h2 := min_le_right b 0
      have h3 := le_max_right a 0
      linarith
    rw [max_eq_left h1]
  | c :: cs, a, b, h, hab => by
    have hd : 0 ≤ dur c := dur_nonneg c h.1
    have hS : 0 ≤ durSum cs := durSum_nonneg cs h.2
    rw [cutSeq, durSum_append, durSum,
      dur_cutSeq cs (a - dur c) (b - dur c) h.2 (by linarith),
      overlap_split a b (dur c) (durSum cs) hd hS]
    by_cases hk : a < dur c ∧ 0 < b
    · rw [if_pos hk, durSum, durSum,
        dur_cutOut c (max a 0) (min b (dur c)) h.1
          (max_le (le_min hab (le_of_lt hk.1)) (le_min (le_of_lt hk.2) hd)),
        min_assoc, min_self, max_assoc, max_self]
      ring
    · rw [if_neg hk, durSum, overlap_zero a b (dur c) hk]

theorem dur_cutPar : ∀ (cs : List Ev) (a b : ℚ), NonnegList cs → a ≤ b →
    durMax (cutPar a b cs) = max 0 (min b (durMax cs) - max a 0)
  | [], a, b, _, _ => by
    rw [cutPar, durMax]
    have h1 : min b 0 - max a 0 ≤ 0 := by
      have h2 := min_le_right b 0
      have h3 := le_max_right a 0
      linarith
    rw [max_eq_left h1]
  | c :: cs, a, b, h, hab => by
    have hd : 0 ≤ dur c := dur_nonneg c h.1
    rw [cutPar, durMax_append, dur_cutPar cs a b h.2 hab]
    conv_rhs => rw [durMax]
    rw [overlap_max a b (dur c) (durMax cs)]
    by_cases hk : a < dur c ∧ 0 < b
    · rw [if_pos hk, durMax, durMax,
        dur_cutOut c (max a 0) (min b (dur c)) h.1
          (max_le (le_min hab (le_of_lt hk.1)) (le_min (le_of_lt hk.2) hd)),
        min_assoc, min_self]
      have h9 : max (max a 0) 0 = max a 0 := by rw [max_assoc, max_self]
      have h11 : ∀ x : ℚ, max (max 0 x) 0 = max 0 x := fun x => by
        rw [max_assoc, max_comm x 0, ← max_assoc, max_self]
      rw [h9, h11]
    · rw [if_neg hk, durMax, overlap_zero a b (dur c) hk]

end

/-- Modelled from the spec: `append(event)` inserts at the end of a compound
(§4.2); a chronon has no children and is unchanged. -/
def append (e x : Ev) : Ev :=
  match e with
  | .chronon d => .chronon d
  | .consec cs => .consec (cs ++ [x])
  | .concur cs => .concur (cs ++ [x])

/-- Modelled from the spec: `insert(index, event)` on a compound (§4.2). -/
def insertAt (i : ℕ) (x : Ev) (e : Ev) : Ev :=
  match e with
  | .chronon d => .chronon d
  | .consec cs => .consec (cs.insertIdx i x)
  | .concur cs => .concur (cs.insertIdx i x)

/-- Modelled from the spec: `remove_by(predicate)` removes matching direct
children in place (§4.2; the `nested` and `only_leaves` flags are not needed
by the claims). -/
def removeBy (pred : Ev → Bool) (e : Ev) : Ev :=
  match e with
  | .chronon d => .chronon d
  | .consec cs => .consec (cs.filter fun c => !pred c)
  | .concur cs => .concur (cs.filter fun c => !pred c)

/-- Modelled from the spec: the walk of `squash_in(absolute_time, event)`
over consecutive children (§4.2).  When the remaining time is `0` the new
event is inserted before the current child (hence before any same-position
event, including zero-duration children); when the time falls strictly inside
a child, the child is split and the new event inserted between the halves;
otherwise the walk advances past the child. -/
def squashList (t : ℚ) (x : Ev) : List Ev → List Ev
  | [] => [x]
  | c :: cs =>
    if t ≤ 0 then x :: c :: cs
    else if t < dur c then
      cutOut 0 t c :: x :: cutOut t (dur c) c :: cs
    else c :: squashList (t - dur c) x cs

/-- Modelled from the spec: `squash_in(absolute_time, event)` on a
Consecution (§4.2); other events are unchanged. -/
def squashIn (t : ℚ) (x : Ev) (e : Ev) : Ev :=
  match e with
  | .chronon d => .chronon d
  | .consec cs => .consec (squashList t x cs)
  | .concur cs => .concur cs

mutual

/-- Modelled from the spec: `cut_off(start, end)` removes the window,
closing the gap for a Consecution and zeroing the overlap for a Concurrence
(§4.2).  A chronon loses the clamped overlap of its span with the window. -/
def cutOff : ℚ → ℚ → Ev → Ev
  | a, b, .chronon d => .chronon (d - max 0 (min b d - max a 0))
  | a, b, .consec cs => .consec (offSeq a b cs)
  | a, b, .concur cs => .concur (offPar a b cs)

/-- `cut_off` over consecutive children: the window slides by each child's
duration. -/
def offSeq : ℚ → ℚ → List Ev → List Ev
  | _, _, [] => []
  | a, b, c :: cs => cutOff a b c :: offSeq (a - dur c) (b - dur c) cs

/-- `cut_off` over concurrent children: the same window is removed from every
child. -/
def offPar : ℚ → ℚ → List Ev → List Ev
  | _, _, [] => []
  | a, b, c :: cs => cutOff a b c :: offPar a b cs

end

/-- The error raised by `split_at` when the split times are not strictly
increasing. -/
inductive SplitError where
  | invalidSplitTime
  deriving DecidableEq

/-- Modelled from the spec: the ordered `cut_out` slices of an event between
consecutive split points and the tree boundaries (§4.2), starting from the
left boundary `a`. -/
def pieceList (e : Ev) : ℚ → List ℚ → List Ev
  | a, [] => [cutOut a (dur e) e]
  | a, t :: ts => cutOut a t e :: pieceList e t ts

/-- Modelled from the spec: `split_at(*times)` returns the ordered sequence
of `cut_out` slices between consecutive split points and the boundaries;
times that are not strictly increasing fail with `InvalidSplitTimeError`
(§4.2). -/
def splitAt (e : Ev) (ts : List ℚ) : Except SplitError (List Ev) :=
  if List.Chain' (fun s t => s < t) ts then .ok (pieceList e 0 ts)
  else .error .invalidSplitTime

/-- Concatenating a sequence of pieces in order: a Consecution of the
pieces. -/
def concatPieces (l : List Ev) : Ev := .consec l

mutual

/-- The leaf sequence of an event tree: the durations of its chronons in
depth-first, child-index order. -/
def leaves : Ev → List ℚ
  | .chronon d => [d]
  | .consec cs => leavesList cs
  | .concur cs => leavesList cs

/-- The concatenated leaf sequences of a list of events. -/
def leavesList : List Ev → List ℚ
  | [] => []
  | c :: cs => leaves c ++ leavesList cs

end

/-- Every piece produced by `pieceList` on a Consecution is itself a
Consecution. -/
theorem pieceList_consec_shape (cs : List Ev) :
    ∀ (ts : List ℚ) (a : ℚ) (p : Ev), p ∈ pieceList (.consec cs) a ts →
      ∃ cs' : List Ev, p = .consec cs' := by
  intro ts
  induction ts with
  | nil =>
    intro a p hp
    rw [pieceList] at hp
    rcases List.mem_singleton.mp hp with rfl
    rw [cutOut]
    exact ⟨_, rfl⟩
  | cons t ts ih =>
    intro a p hp
    rw [pieceList] at hp
    rcases List.mem_cons.mp hp with rfl | hmem
    · rw [cutOut]
      exact ⟨_, rfl⟩
    · exact ih t p hmem

/-- C2: a Consecution's duration is the sum of its children's durations —
recomputed from the children — and the invariant still holds after every
structural edit operation: append, insert, squash_in, remove_by, split_at
(for every returned piece), cut_out and cut_off. -/
theorem consecution_duration_additivity :
    (∀ cs : List Ev, dur (.consec cs) = durSum (children (.consec cs))) ∧
    (∀ (cs : List Ev) (x : Ev),
      dur (append (.consec cs) x) = durSum (children (append (.consec cs) x))) ∧
    (∀ (cs : List Ev) (i : ℕ) (x : Ev),
      dur (insertAt i x (.consec cs)) = durSum (children (insertAt i x (.consec cs)))) ∧
    (∀ (cs : List Ev) (t : ℚ) (x : Ev),
      dur (squashIn t x (.consec cs)) = durSum (children (squashIn t x (.consec cs)))) ∧
    (∀ (cs : List Ev) (pred : Ev → Bool),
      dur (removeBy pred (.consec cs)) = durSum (children (removeBy pred (.consec cs)))) ∧
    (∀ (cs : List Ev) (ts : List ℚ) (l : List Ev), splitAt (.consec cs) ts = .ok l →
      ∀ p ∈ l, dur p = durSum (children p)) ∧
    (∀ (cs : List Ev) (a b : ℚ),
      dur (cutOut a b (.consec cs)) = durSum (children (cutOut a b (.consec cs)))) ∧
    (∀ (cs : List Ev) (a b : ℚ),
      dur (cutOff a b (.consec cs)) = durSum (children (cutOff a b (.consec cs)))) := by
  refine ⟨?_, ?_, ?_, ?_, ?_, ?_, ?_, ?_⟩
  · intro cs; rw [dur, children]
  · intro cs x; rw [append, dur, children]
  · intro cs i x; rw [insertAt, dur, children]
  · intro cs t x; rw [squashIn, dur, children]
  · intro cs pred; rw [removeBy, dur, children]
  · intro cs ts l hok p hp
    rw [splitAt] at hok
    by_cases hch : List.Chain' (fun s t => s < t) ts
    · rw [if_pos hch] at hok
      have hl : l = pieceList (.consec cs) 0 ts := (Except.ok.injEq _ _).mp hok.symm
      subst hl
      obtain ⟨cs', rfl⟩ := pieceList_consec_shape cs ts 0 p hp
      rw [dur, children]
    · rw [if_neg hch] at hok
      exact absurd hok (by simp)
  · intro cs a b; rw [cutOut, dur, children]
  · intro cs a b; rw [cutOff, dur, children]

/-- Witness for C2: the split_at conjunct applied to a concrete Consecution
and split list, together with the basic additivity conjunct. -/
theorem consecution_duration_additivity_witness :
    dur (.consec [.chronon 1, .chronon 2]) =
      durSum (children (.consec [.chronon 1, .chronon 2])) ∧
    dur (.consec [.chronon 1]) = durSum (children (.consec [.chronon 1])) := by
  constructor
  · exact consecution_duration_additivity.1 [.chronon 1, .chronon 2]
  · apply consecution_duration_additivity.2.2.2.2.2.1 [.chronon 1, .chronon 2] [1]
      [.consec [.chronon 1], .consec [.chronon 2]]
    · show splitAt (.consec [.chronon 1, .chronon 2]) [1] = _
      rw [splitAt, if_pos (List.chain'_singleton (1 : ℚ))]
      rw [pieceList, pieceList]
      rw [show dur (.consec [.chronon 1, .chronon 2]) = 3 by
        rw [dur, durSum, durSum, durSum, dur, dur]; norm_num]
      rw [show cutOut 0 1 (.consec [.chronon 1, .chronon 2]) = .consec [.chronon 1] by
        rw [cutOut, cutSeq, cutSeq, cutSeq]
        norm_num [dur, cutOut]]
      rw [show cutOut 1 3 (.consec [.chronon 1, .chronon 2]) = .consec [.chronon 2] by
        rw [cutOut, cutSeq, cutSeq, cutSeq]
        norm_num [dur, cutOut]]
    · simp

/-- In a strictly increasing list of rationals the head is below every later
element. -/
theorem chain_head_lt (t : ℚ) (ts : List ℚ)
    (h : List.Chain' (fun s u => s < u) (t :: ts)) : ∀ s ∈ ts, t < s := by
  induction ts generalizing t with
  | nil => intro s hs; cases hs
  | cons u us ih =>
    intro s hs
    have htu : t < u := (List.chain'_cons.mp h).1
    rcases List.mem_cons.mp hs with rfl | hmem
    · exact htu
    · exact lt_trans htu (ih u (List.chain'_cons.mp h).2 s hmem)

/-- The pieces of a split cover the event: their durations sum to the
duration to the right of the left boundary. -/
theorem durSum_pieceList (e : Ev) (hne : NonnegEv e) :
    ∀ (ts : List ℚ) (a : ℚ), 0 ≤ a → a ≤ dur e →
      (∀ t ∈ ts, a ≤ t ∧ t ≤ dur e) → List.Chain' (fun s u => s < u) ts →
      durSum (pieceList e a ts) = dur e - a := by
  intro ts
  induction ts with
  | nil =>
    intro a ha0 hae _ _
    rw [pieceList, durSum, durSum,
      dur_cutOut e a (dur e) hne hae, min_self, max_eq_left ha0,
      max_eq_right (sub_nonneg.mpr hae)]
    ring
  | cons t ts ih =>
    intro a ha0 hae hmem hchain
    have hm := hmem t (List.mem_cons_self t ts)
    rw [pieceList, durSum,
      dur_cutOut e a t hne hm.1,
      min_eq_left hm.2, max_eq_left ha0, max_eq_right (sub_nonneg.mpr hm.1),
      ih t (le_trans ha0 hm.1) hm.2
        (fun s hs => ⟨le_of_lt (chain_head_lt t ts hchain s hs), (hmem s (List.mem_cons_of_mem t hs)).2⟩)
        (List.chain'_cons'.mp hchain).2]
    ring

/-- Counterexample to C3 as stated: splitting the Consecution of a single
chronon of duration `2` at time `1` and concatenating the two pieces yields
the leaf sequence `[1, 1]`, which differs from the original leaf sequence
`[2]` — a leaf crossing a split time is itself split, so the leaf sequence is
not preserved. -/
theorem split_roundtrip_counterexample :
    splitAt (.consec [.chronon 2]) [1] =
      .ok [.consec [.chronon 1], .consec [.chronon 1]] ∧
    leaves (concatPieces [.consec [.chronon 1], .consec [.chronon 1]]) = [1, 1] ∧
    leaves (.consec [.chronon 2]) = [2] ∧
    ([1, 1] : List ℚ) ≠ ([2] : List ℚ) := by
  refine ⟨?_, ?_, ?_, ?_⟩
  · rw [splitAt, if_pos (List.chain'_singleton (1 : ℚ))]
    rw [pieceList, pieceList]
    rw [show dur (.consec [.chronon 2]) = 2 by rw [dur, durSum, durSum, dur]; norm_num]
    rw [show cutOut 0 1 (.consec [.chronon 2]) = .consec [.chronon 1] by
      rw [cutOut, cutSeq, cutSeq]
      norm_num [dur, cutOut]]
    rw [show cutOut 1 2 (.consec [.chronon 2]) = .consec [.chronon 1] by
      rw [cutOut, cutSeq, cutSeq]
      norm_num [dur, cutOut]]
  · simp [concatPieces, leaves, leavesList]
  · simp [leaves, leavesList]
  · simp

/-- C3 as amended: for a nonnegative event and strictly increasing split
times inside `(0, duration)`, `split_at` returns the ordered `cut_out`
slices between consecutive split points and the boundaries, concatenating
them yields an event of the same total duration (the leaf sequence is only
preserved in refined form, since leaves crossing a split time are split),
and any non-strictly-increasing time list fails with
`InvalidSplitTimeError`. -/
theorem splitAt_partition (e : Ev) (ts : List ℚ) (hne : NonnegEv e)
    (hchain : List.Chain' (fun s u => s < u) ts)
    (hmem : ∀ t ∈ ts, 0 < t ∧ t < dur e) :
    splitAt e ts = .ok (pieceList e 0 ts) ∧
    dur (concatPieces (pieceList e 0 ts)) = dur e ∧
    (∀ ts' : List ℚ, ¬ List.Chain' (fun s u => s < u) ts' →
      splitAt e ts' = .error .invalidSplitTime) := by
  refine ⟨?_, ?_, ?_⟩
  · rw [splitAt, if_pos hchain]
  · rw [concatPieces, dur,
      durSum_pieceList e hne ts 0 le_rfl (dur_nonneg e hne)
        (fun t ht => ⟨le_of_lt (hmem t ht).1, le_of_lt (hmem t ht).2⟩) hchain]
    ring
  · intro ts' hch
    rw [splitAt, if_neg hch]

/-- Witness for the amended C3 on the Consecution of chronons `1` and `2`
split at time `1`. -/
theorem splitAt_partition_witness :
    splitAt (.consec [.chronon 1, .chronon 2]) [1] =
      .ok (pieceList (.consec [.chronon 1, .chronon 2]) 0 [1]) ∧
    dur (concatPieces (pieceList (.consec [.chronon 1, .chronon 2]) 0 [1])) =
      dur (.consec [.chronon 1, .chronon 2]) := by
  have h := splitAt_partition (.consec [.chronon 1, .chronon 2]) [1]
    (by simp [NonnegEv, NonnegList, dur])
    (List.chain'_singleton (1 : ℚ))
    (by
      intro t ht
      rw [List.mem_singleton] at ht
      subst ht
      constructor
      · norm_num
      · rw [show dur (.consec [.chronon 1, .chronon 2]) = 3 by
          rw [dur, durSum, durSum, durSum, dur, dur]; norm_num]
        norm_num)
  exact ⟨h.1, h.2.1⟩

/-- Sums of durations of lists with nonnegative member durations are
nonnegative. -/
theorem durSum_nonneg_of_mem (l : List Ev) (h : ∀ c ∈ l, 0 ≤ dur c) :
    0 ≤ durSum l := by
  induction l with
  | nil => rw [durSum]
  | cons c cs ih =>
    rw [durSum]
    have h1 := h c (List.mem_cons_self c cs)
    have h2 := ih fun d hd => h d (List.mem_cons_of_mem c hd)
    linarith

/-- The `squash_in` walk at an exact child boundary: when the walk consumes
exactly the prefix `pre` (the boundary is reached with remaining time `0`),
the new event is inserted before whatever child sits at that boundary. -/
theorem squashList_boundary :
    ∀ (pre : List Ev) (z x : Ev) (rest : List Ev) (t : ℚ),
      (∀ c ∈ pre, 0 ≤ dur c) → t = durSum pre →
      (∀ k, k < pre.length → durSum (pre.take k) < t) →
      squashList t x (pre ++ z :: rest) = pre ++ x :: z :: rest := by
  intro pre
  induction pre with
  | nil =>
    intro z x rest t _ ht _
    rw [durSum] at ht
    subst ht
    rw [List.nil_append, squashList, if_pos le_rfl, List.nil_append]
  | cons c pre2 ih =>
    intro z x rest t hpre ht hstrict
    have h0 : 0 < t := by
      have := hstrict 0 (by simp)
      simpa [durSum] using this
    have hcd : 0 ≤ dur c := hpre c (List.mem_cons_self c pre2)
    have hS : 0 ≤ durSum pre2 :=
      durSum_nonneg_of_mem pre2 fun d hd => hpre d (List.mem_cons_of_mem c hd)
    rw [durSum] at ht
    rw [List.cons_append, squashList, if_neg (not_le.mpr h0),
      if_neg (not_lt.mpr (by linarith))]
    rw [List.cons_append]
    congr 1
    apply ih z x rest (t - dur c)
      (fun d hd => hpre d (List.mem_cons_of_mem c hd))
      (by linarith)
    intro k hk
    have := hstrict (k + 1) (by simpa using Nat.succ_lt_succ hk)
    rw [List.take_succ_cons, durSum] at this
    linarith

/-- C7: when `squash_in`'s absolute time coincides exactly with an existing
child boundary of a Consecution — including the position of a zero-duration
child — the new event is inserted before the event sitting at that position,
so it precedes the existing zero-duration event in iteration order. -/
theorem squashIn_tie_break (pre : List Ev) (z x : Ev) (rest : List Ev) (t : ℚ)
    (_hz : dur z = 0) (hpre : ∀ c ∈ pre, 0 ≤ dur c) (ht : t = durSum pre)
    (hstrict : ∀ k, k < pre.length → durSum (pre.take k) < t) :
    squashIn t x (.consec (pre ++ z :: rest)) = .consec (pre ++ x :: z :: rest) := by
  rw [squashIn]
  rw [squashList_boundary pre z x rest t hpre ht hstrict]

/-- Witness for C7: squashing `chronon 5` into the Consecution
`[chronon 1, chronon 0, chronon 2]` at the boundary time `1` (occupied by
the zero-duration chronon) places the new event right before the
zero-duration one. -/
theorem squashIn_tie_break_witness :
    squashIn 1 (.chronon 5) (.consec [.chronon 1, .chronon 0, .chronon 2]) =
      .consec [.chronon 1, .chronon 5, .chronon 0, .chronon 2] := by
  have h := squashIn_tie_break [.chronon 1] (.chronon 0) (.chronon 5) [.chronon 2] 1
    (by rw [dur])
    (by
      intro c hc
      rw [List.mem_singleton] at hc
      subst hc
      rw [dur]
      norm_num)
    (by rw [durSum, durSum, dur]; norm_num)
    (by
      intro k hk
      simp only [List.length_singleton] at hk
      have hk0 : k = 0 := Nat.lt_one_iff.mp hk
      subst hk0
      rw [List.take_zero, durSum]
      norm_num)
  simpa using h

/-! ## Tempo-based time transformation (`metrize`)

Modelled from the spec (§4.4): tempo is an envelope; converting a beat span
to absolute time integrates the envelope over the span; `metrize` walks the
tree depth-first accumulating beat offsets, replaces every leaf duration by
the integral of the applicable envelope over its beat span (outer envelopes
are resolved before the envelopes of nested events), and resets every
visited node's envelope to the identity (flat `1:1`) envelope. -/

/-- The total integral of a tempo envelope over `[a, b]`, as the difference
of the cumulative closed form (the spec's `integrate_interval` without the
empty-envelope guard, which the identity envelope never triggers). -/
noncomputable def integ (ps : Env) (a b : ℝ) : ℝ := cum ps b - cum ps a

/-- The identity (flat, `1:1`) tempo envelope. -/
def unitEnv : Env := [⟨0, 1, 0⟩]

/-- Integrating the identity envelope over a span returns the span length. -/
theorem integ_unit (a b : ℝ) : integ unitEnv a b = b - a := by
  have hcum : ∀ t : ℝ, cum unitEnv t = t := by
    intro t
    rw [unitEnv, cum]
    split_ifs with h
    · simp
    · rw [cumAux]; simp
  rw [integ, hcum, hcum]

/-- An event tree with tempo envelopes: a leaf holds a beat duration and a
tempo envelope; compound nodes hold a tempo envelope and children (laid end
to end for `consec`, overlapped for `concur`). -/
inductive TEvent where
  | chronon (d : ℝ) (tempo : Env)
  | consec (tempo : Env) (cs : List TEvent)
  | concur (tempo : Env) (cs : List TEvent)

mutual

/-- Beat duration of a tempo-carrying event. -/
noncomputable def tdur : TEvent → ℝ
  | .chronon d _ => d
  | .consec _ cs => tdurSum cs
  | .concur _ cs => tdurMax cs

/-- Sum of beat durations. -/
noncomputable def tdurSum : List TEvent → ℝ
  | [] => 0
  | c :: cs => tdur c + tdurSum cs

/-- Max of beat durations. -/
noncomputable def tdurMax : List TEvent → ℝ
  | [] => 0
  | c :: cs => max (tdur c) (tdurMax cs)

end

mutual

/-- Applying a tempo envelope to a subtree: every leaf's beat span (located
through the accumulated beat offset) is replaced by the envelope's integral
over that span; the subtree's own envelopes are left in place for later
resolution. -/
noncomputable def applyTempo (env : Env) : ℝ → TEvent → TEvent
  | off, .chronon d te => .chronon (integ env off (off + d)) te
  | off, .consec te cs => .consec te (applyTempoSeq env off cs)
  | off, .concur te cs => .concur te (applyTempoPar env off cs)

/-- `applyTempo` over consecutive children: the beat offset advances by each
child's (pre-transformation) beat duration. -/
noncomputable def applyTempoSeq (env : Env) : ℝ → List TEvent → List TEvent
  | _, [] => []
  | off, c :: cs => applyTempo env off c :: applyTempoSeq env (off + tdur c) cs

/-- `applyTempo` over concurrent children: every child starts at the same
beat offset. -/
noncomputable def applyTempoPar (env : Env) : ℝ → List TEvent → List TEvent
  | _, [] => []
  | off, c :: cs => applyTempo env off c :: applyTempoPar env off cs

end

mutual

/-- Structural size of a tempo event tree (one unit per node). -/
def tsize : TEvent → ℕ
  | .chronon _ _ => 1
  | .consec _ cs => 1 + tlsize cs
  | .concur _ cs => 1 + tlsize cs

/-- Structural size of a list of tempo event trees. -/
def tlsize : List TEvent → ℕ
  | [] => 0
  | c :: cs => tsize c + tlsize cs

end

/-- Every tempo event tree has positive size. -/
theorem tsize_pos (e : TEvent) : 1 ≤ tsize e := by
  cases e <;> simp [tsize]

mutual

theorem tsize_applyTempo : ∀ (env : Env) (off : ℝ) (e : TEvent),
    tsize (applyTempo env off e) = tsize e
  | env, off, .chronon d te => by rw [applyTempo, tsize, tsize]
  | env, off, .consec te cs => by
    rw [applyTempo, tsize, tsize, tlsize_applyTempoSeq env off cs]
  | env, off, .concur te cs => by
    rw [applyTempo, tsize, tsize, tlsize_applyTempoPar env off cs]

theorem tlsize_applyTempoSeq : ∀ (env : Env) (off : ℝ) (cs : List TEvent),
    tlsize (applyTempoSeq env off cs) = tlsize cs
  | env, off, [] => by rw [applyTempoSeq]
  | env, off, c :: cs => by
    rw [applyTempoSeq, tlsize, tlsize, tsize_applyTempo env off c,
      tlsize_applyTempoSeq env (off + tdur c) cs]

theorem tlsize_applyTempoPar : ∀ (env : Env) (off : ℝ) (cs : List TEvent),
    tlsize (applyTempoPar env off cs) = tlsize cs
  | env, off, [] => by rw [applyTempoPar]
  | env, off, c :: cs => by
    rw [applyTempoPar, tlsize, tlsize, tsize_applyTempo env off c,
      tlsize_applyTempoPar env off cs]

end

mutual

/-- Modelled from the spec: `metrize` resolves the node's own tempo envelope
over its children (accumulating beat offsets), recursively metrizes the
children in the resolved axis, and resets the node's envelope to the
identity envelope; a leaf's duration becomes the integral of its envelope
over its own beat span. -/
noncomputable def metrize : TEvent → TEvent
  | .chronon d te => .chronon (integ te 0 d) unitEnv
  | .consec te cs => .consec unitEnv (metrizeList (applyTempoSeq te 0 cs))
  | .concur te cs => .concur unitEnv (metrizeList (applyTempoPar te 0 cs))
termination_by e => 2 * tsize e
decreasing_by
  · simp only [tsize, tlsize_applyTempoSeq]; omega
  · simp only [tsize, tlsize_applyTempoPar]; omega

/-- `metrize` mapped over a list of children. -/
noncomputable def metrizeList : List TEvent → List TEvent
  | [] => []
  | c :: cs => metrize c :: metrizeList cs
termination_by l => 2 * tlsize l + 1
decreasing_by
  · have := tsize_pos c; simp only [tlsize]; omega
  · have := tsize_pos c; simp only [tlsize]; omega

end

mutual

/-- Every node of the tree carries the identity tempo envelope. -/
def AllUnit : TEvent → Prop
  | .chronon _ te => te = unitEnv
  | .consec te cs => te = unitEnv ∧ AllUnitList cs
  | .concur te cs => te = unitEnv ∧ AllUnitList cs

/-- `AllUnit` for every member of a list. -/
def AllUnitList : List TEvent → Prop
  | [] => True
  | c :: cs => AllUnit c ∧ AllUnitList cs

end

mutual

theorem applyTempo_unit : ∀ (off : ℝ) (e : TEvent), applyTempo unitEnv off e = e
  | off, .chronon d te => by
    rw [applyTempo, integ_unit]
    congr 1
    ring
  | off, .consec te cs => by rw [applyTempo, applyTempoSeq_unit off cs]
  | off, .concur te cs => by rw [applyTempo, applyTempoPar_unit off cs]

theorem applyTempoSeq_unit : ∀ (off : ℝ) (cs : List TEvent),
    applyTempoSeq unitEnv off cs = cs
  | _, [] => by rw [applyTempoSeq]
  | off, c :: cs => by
    rw [applyTempoSeq, applyTempo_unit off c, applyTempoSeq_unit (off + tdur c) cs]

theorem applyTempoPar_unit : ∀ (off : ℝ) (cs : List TEvent),
    applyTempoPar unitEnv off cs = cs
  | _, [] => by rw [applyTempoPar]
  | off, c :: cs => by
    rw [applyTempoPar, applyTempo_unit off c, applyTempoPar_unit off cs]

end

mutual

theorem metrize_allUnit : ∀ e : TEvent, AllUnit (metrize e)
  | .chronon d te => by
    rw [metrize, AllUnit]
  | .consec te cs => by
    rw [metrize, AllUnit]
    exact ⟨rfl, metrizeList_allUnit (applyTempoSeq te 0 cs)⟩
  | .concur te cs => by
    rw [metrize, AllUnit]
    exact ⟨rfl, metrizeList_allUnit (applyTempoPar te 0 cs)⟩
termination_by e => 2 * tsize e
decreasing_by
  · simp only [tsize, tlsize_applyTempoSeq]; omega
  · simp only [tsize, tlsize_applyTempoPar]; omega

theorem metrizeList_allUnit : ∀ l : List TEvent, AllUnitList (metrizeList l)
  | [] => by rw [metrizeList, AllUnitList]; trivial
  | c :: cs => by
    rw [metrizeList, AllUnitList]
    exact ⟨metrize_allUnit c, metrizeList_allUnit cs⟩
termination_by l => 2 * tlsize l + 1
decreasing_by
  · have := tsize_pos c; simp only [tlsize]; omega
  · have := tsize_pos c; simp only [tlsize]; omega

end

mutual

theorem metrize_of_allUnit : ∀ e : TEvent, AllUnit e → metrize e = e
  | .chronon d te, h => by
    have hte : te = unitEnv := h
    rw [metrize, hte, integ_unit]
    congr 1
    ring
  | .consec te cs, h => by
    have hte : te = unitEnv := h.1
    rw [metrize, hte, applyTempoSeq_unit 0 cs, metrizeList_of_allUnit cs h.2]
  | .concur te cs, h => by
    have hte : te = unitEnv := h.1
    rw [metrize, hte, applyTempoPar_unit 0 cs, metrizeList_of_allUnit cs h.2]

theorem metrizeList_of_allUnit : ∀ l : List TEvent, AllUnitList l → metrizeList l = l
  | [], _ => by rw [metrizeList]
  | c :: cs, h => by
    rw [metrizeList, metrize_of_allUnit c h.1, metrizeList_of_allUnit cs h.2]

end

/-- C4: metrization is idempotent — after one `metrize` every node's tempo
envelope is the identity envelope, so a second `metrize` leaves the tree
(and in particular every absolute duration) unchanged. -/
theorem metrize_idempotent (e : TEvent) :
    metrize (metrize e) = metrize e ∧ AllUnit (metrize e) :=
  ⟨metrize_of_allUnit (metrize e) (metrize_allUnit e), metrize_allUnit e⟩

end Mutwo
